import Mathlib

/-!
Verification of the ttt typing-practice tool's core engine.

The Rust sources (src/types.rs, src/helpers.rs, src/app.rs) are shallowly
embedded below:

* `Glyph`, `Layout` mirror types.rs (a glyph is a display character plus its
  absolute index in the original text).
* `layoutAux` / `layout_text` mirror helpers.rs `layout_text` (greedy
  word-wrap).  Texts are lists of characters (Rust iterates `text.chars()`),
  widths are naturals (the u16 width is clamped with `.max(1)` and converted
  to usize by the source; no arithmetic on it can overflow).
* `cursor_row_col_from_layout` mirrors the cursor locator of helpers.rs,
  including the truncating `as u16` casts on the returned row and column,
  modelled as `% 65536`.
* `build_target_lines_from_layout` mirrors the diff renderer of helpers.rs,
  with the four concrete ratatui styles renamed by the abstract enum
  `GlyphStyle`.
* `scroll_offset` mirrors the scroll computation of app.rs `draw_ui`
  (u16 `saturating_sub` on in-range values is exactly `Nat` subtraction).
* `AppState`, `handle_key`, `reset`, `stats` mirror app.rs.  `Instant` is
  modelled by a natural-number timestamp supplied as a `now` parameter, the
  random draw of `generate_text` by an oracle parameter `gen`, the
  tui_input buffer by a character list plus cursor position, and f64
  arithmetic in `stats` by rational arithmetic with the same branch
  structure.
-/

namespace Ttt

/-- Glyph from types.rs: one display character plus its index in the
original (un-wrapped) text. -/
structure Glyph where
  ch : Char
  idx : Nat
deriving DecidableEq, Repr

/-- Layout from types.rs: rows of glyphs. -/
abbrev Layout := List (List Glyph)

/-- Boolean test used by the word scan of `layout_text`
(`chars[i] != ' '`). -/
def notSpace (c : Char) : Bool := !(c == ' ')

/-- Glyphs for the word-emission loop of `layout_text`
(`for j in start..i { push Glyph { ch: chars[j], idx: j } }`):
consecutive indices starting at `i`, paired with the given characters. -/
def glyphsFrom : Nat → List Char → List Glyph
  | _, [] => []
  | i, c :: cs => ⟨c, i⟩ :: glyphsFrom (i + 1) cs

/-- Main loop of helpers.rs `layout_text`.  State: remaining characters,
absolute index `i` of the first remaining character, current column `col`,
and the current (last) row `cur` being built.  Completed rows are emitted in
order; the final state's current row is always emitted, so the result has at
least one row (the source's trailing `if lines.is_empty()` push is dead
code, since `lines` starts as `vec![Vec::new()]`). -/
def layoutAux (width : Nat) : List Char → Nat → Nat → List Glyph → Layout
  | [], _, _, cur => [cur]
  | c :: cs, i, col, cur =>
    if h : c = ' ' then
      if col = 0 then
        layoutAux width cs (i + 1) col cur
      else if width < col + 1 then
        cur :: layoutAux width cs (i + 1) 0 []
      else
        layoutAux width cs (i + 1) (col + 1) (cur ++ [⟨' ', i⟩])
    else
      if 0 < col ∧ width < col + (List.takeWhile notSpace (c :: cs)).length then
        cur :: layoutAux width (List.dropWhile notSpace (c :: cs))
          (i + (List.takeWhile notSpace (c :: cs)).length)
          (List.takeWhile notSpace (c :: cs)).length
          (glyphsFrom i (List.takeWhile notSpace (c :: cs)))
      else
        layoutAux width (List.dropWhile notSpace (c :: cs))
          (i + (List.takeWhile notSpace (c :: cs)).length)
          (col + (List.takeWhile notSpace (c :: cs)).length)
          (cur ++ glyphsFrom i (List.takeWhile notSpace (c :: cs)))
termination_by cs => cs.length
decreasing_by
  · simp
  · simp
  · simp
  · simp only [List.dropWhile_cons, List.length_cons]
    rw [if_pos (show notSpace c = true from by simp [notSpace, h])]
    exact Nat.lt_succ_of_le (List.dropWhile_sublist notSpace (l := cs)).length_le
  · simp only [List.dropWhile_cons, List.length_cons]
    rw [if_pos (show notSpace c = true from by simp [notSpace, h])]
    exact Nat.lt_succ_of_le (List.dropWhile_sublist notSpace (l := cs)).length_le

/-- helpers.rs `layout_text`: word-wrap `text` to rows of at most
`max width 1` glyphs (width clamped to a minimum of 1), preserving each
character's original index. -/
def layout_text (text : List Char) (width : Nat) : Layout :=
  layoutAux (max width 1) text 0 0 []

/-- Fuel-based structural twin of `layoutAux`, used so that concrete layouts
can be evaluated by the kernel (`layoutAux` itself is defined by
well-founded recursion).  `layoutAux_eq_fuel` proves the two agree whenever
the fuel covers the remaining characters. -/
def layoutAuxF (width : Nat) : Nat → List Char → Nat → Nat → List Glyph → Layout
  | _, [], _, _, cur => [cur]
  | 0, _ :: _, _, _, cur => [cur]
  | fuel + 1, c :: cs, i, col, cur =>
    if c = ' ' then
      if col = 0 then
        layoutAuxF width fuel cs (i + 1) col cur
      else if width < col + 1 then
        cur :: layoutAuxF width fuel cs (i + 1) 0 []
      else
        layoutAuxF width fuel cs (i + 1) (col + 1) (cur ++ [⟨' ', i⟩])
    else
      if 0 < col ∧ width < col + (List.takeWhile notSpace (c :: cs)).length then
        cur :: layoutAuxF width fuel (List.dropWhile notSpace (c :: cs))
          (i + (List.takeWhile notSpace (c :: cs)).length)
          (List.takeWhile notSpace (c :: cs)).length
          (glyphsFrom i (List.takeWhile notSpace (c :: cs)))
      else
        layoutAuxF width fuel (List.dropWhile notSpace (c :: cs))
          (i + (List.takeWhile notSpace (c :: cs)).length)
          (col + (List.takeWhile notSpace (c :: cs)).length)
          (cur ++ glyphsFrom i (List.takeWhile notSpace (c :: cs)))

/-- Executable form of `layout_text` (same result, structural recursion). -/
def layout_textF (text : List Char) (width : Nat) : Layout :=
  layoutAuxF (max width 1) text.length text 0 0 []

/-- Consecutive naturals `[s, s+1, ..., s+n-1]`; models a Rust range
`s..s+n` and the index runs appearing in layouts. -/
def consecFrom : Nat → Nat → List Nat
  | _, 0 => []
  | s, n + 1 => s :: consecFrom (s + 1) n

/-- Index-character pairs of a character list, starting at absolute index
`i` (used only in lemma statements about `layout_text`). -/
def enumF : Nat → List Char → List (Nat × Char)
  | _, [] => []
  | i, c :: cs => (i, c) :: enumF (i + 1) cs

/-- Left word-boundary: position `a` is the text start or is preceded by a
space. -/
def leftB (T : List Char) (a : Nat) : Prop := a = 0 ∨ T[a - 1]? = some ' '

/-- Right word-boundary: position `b` is the text end or holds a space. -/
def rightB (T : List Char) (b : Nat) : Prop := b = T.length ∨ T[b]? = some ' '

/-- Structural facts holding for every row of a layout of text `T` at
width `W`: row characters match the text at their indices, a row never
begins with a space glyph, row indices are consecutive, a nonempty row
begins at a left word-boundary, and the row fits in `W` unless it is a
single all-non-space over-long word ending at a right word-boundary. -/
def RowOK (T : List Char) (W : Nat) (r : List Glyph) : Prop :=
  (∀ g ∈ r, T[g.idx]? = some g.ch) ∧
  (∀ g, r.head? = some g → g.ch ≠ ' ') ∧
  ∃ s, r.map Glyph.idx = consecFrom s r.length ∧
    (r ≠ [] → leftB T s) ∧
    (r.length ≤ W ∨ ((∀ g ∈ r, g.ch ≠ ' ') ∧ rightB T (s + r.length)))

/-- Maximal contiguous non-space run of `T` starting at `a` with `len`
characters: nonempty, in range, all non-space, delimited by the text ends
or spaces. -/
def isMaxRun (T : List Char) (a len : Nat) : Prop :=
  1 ≤ len ∧ a + len ≤ T.length ∧
  (∀ j c, a ≤ j → j < a + len → T[j]? = some c → c ≠ ' ') ∧
  leftB T a ∧ rightB T (a + len)

/-- Ratatui styles produced by the diff renderer of helpers.rs, named
abstractly: `Style::default()` (untyped), `fg(Green)` (correct),
`bg(Red)` (incorrect space) and `fg(Red)` (incorrect letter). -/
inductive GlyphStyle where
  | untyped
  | correct
  | incorrectSpace
  | incorrectLetter
deriving DecidableEq, Repr

/-- helpers.rs `build_target_lines_from_layout`: one styled row per visible
target row (`scroll_y..min (scroll_y + visible_height) layout.len()`); each
glyph is paired with the style chosen by looking up the typed character at
the glyph's source index. -/
def build_target_lines_from_layout (layout : Layout) (typed : List Char)
    (scroll_y visible_height : Nat) : List (List (Char × GlyphStyle)) :=
  (consecFrom scroll_y (min (scroll_y + visible_height) layout.length - scroll_y)).map
    (fun row => (layout.getD row []).map (fun glyph =>
      (glyph.ch,
        match typed[glyph.idx]? with
        | some uc =>
          if uc = glyph.ch then GlyphStyle.correct
          else if glyph.ch = ' ' then GlyphStyle.incorrectSpace
          else GlyphStyle.incorrectLetter
        | none => GlyphStyle.untyped)))

/-- Row scan of helpers.rs `cursor_row_col_from_layout`: first row containing
a glyph whose index equals the cursor index, paired with the column of the
first such glyph in that row. -/
def cursorAux : Layout → Nat → Nat → Option (Nat × Nat)
  | [], _, _ => none
  | line :: rest, cursor_idx, row =>
    match List.findIdx? (fun g => g.idx == cursor_idx) line with
    | some col => some (row, col)
    | none => cursorAux rest cursor_idx (row + 1)

/-- helpers.rs `cursor_row_col_from_layout`: locate the cursor index in the
layout; fall back to the position just after the last glyph of the last row.
The source returns `u16` coordinates: every returned row and column goes
through a truncating `as u16` cast, modelled as `% 65536`. -/
def cursor_row_col_from_layout (layout : Layout) (cursor_idx : Nat) : Nat × Nat :=
  match cursorAux layout cursor_idx 0 with
  | some rc => (rc.1 % 65536, rc.2 % 65536)
  | none =>
    match layout.getLast? with
    | some last_line => ((layout.length - 1) % 65536, last_line.length % 65536)
    | none => (0, 0)

/-- Scroll computation of app.rs `draw_ui` (lines 159-163):
`max_scroll = total_rows.saturating_sub(visible_height)`,
`desired = cursor_row.saturating_sub(visible_height - 1)`,
`scroll = min desired max_scroll`.  On `Nat`, subtraction is exactly u16
`saturating_sub`; the source guarantees `visible_height ≥ 1` via `.max(1)`,
so the plain `visible_height - 1` never underflows. -/
def scroll_offset (total_rows visible_height cursor_row : Nat) : Nat :=
  min (cursor_row - (visible_height - 1)) (total_rows - visible_height)

/-- TextSource from types.rs. -/
inductive TextSource where
  | randomWords : List (List Char) → TextSource
  | fixed : List Char → TextSource
deriving DecidableEq

/-- Target produced from a `TextSource` (app.rs `App::new` / `App::reset`).
For a fixed source this is the stored text; for a word-list source the
original calls `generate_text`, which draws random words — the drawn text is
supplied here as the oracle `gen`. -/
def regenerate (source : TextSource) (gen : List Char) : List Char :=
  match source with
  | TextSource.fixed text => text
  | TextSource.randomWords _ => gen

/-- App from app.rs.  The tui_input `Input` is modelled by its character
list `inputValue` and cursor position `inputCursor`; `Instant` timestamps by
naturals. -/
structure AppState where
  source : TextSource
  target : List Char
  inputValue : List Char
  inputCursor : Nat
  started_at : Option Nat
  finished_at : Option Nat
  count : Nat
deriving DecidableEq

/-- app.rs `App::reset`: regenerate the target, clear the typed buffer and
both timestamps. -/
def reset (app : AppState) (gen : List Char) : AppState :=
  { app with
    target := regenerate app.source gen,
    inputValue := [],
    inputCursor := 0,
    started_at := none,
    finished_at := none }

/-- Key codes reaching `App::handle_key` (crossterm).  `other` stands for
any key code not otherwise distinguished by the app (arrows, tab, ...). -/
inductive KeyCode where
  | char : Char → KeyCode
  | f : Nat → KeyCode
  | backspace : KeyCode
  | enter : KeyCode
  | esc : KeyCode
  | other : KeyCode
deriving DecidableEq

/-- tui_input `InputRequest::InsertChar`: insert at the cursor, advance the
cursor. -/
def inputInsert (app : AppState) (c : Char) : AppState :=
  { app with
    inputValue := app.inputValue.take app.inputCursor ++
      c :: app.inputValue.drop app.inputCursor,
    inputCursor := app.inputCursor + 1 }

/-- tui_input `InputRequest::DeletePrevChar`: remove the character before
the cursor, if any. -/
def inputDeletePrev (app : AppState) : AppState :=
  if app.inputCursor = 0 then app
  else
    { app with
      inputValue := app.inputValue.take (app.inputCursor - 1) ++
        app.inputValue.drop app.inputCursor,
      inputCursor := app.inputCursor - 1 }

/-- UTF-8 byte size of one character (Rust `char::len_utf8`). -/
def charUtf8Size (c : Char) : Nat :=
  if c.val < 0x80 then 1
  else if c.val < 0x800 then 2
  else if c.val < 0x10000 then 3
  else 4

/-- UTF-8 byte length of a character list: Rust `str::len` of the
corresponding string.  The finish check of `App::handle_key` compares
`typed.len() >= self.target.len()`, i.e. byte lengths. -/
def utf8Len (l : List Char) : Nat := (l.map charUtf8Size).sum

/-- app.rs `App::handle_key`.  `now` is the current instant, `gen` the
oracle for the random draw a reset would perform. -/
def handle_key (app : AppState) (key : KeyCode) (now : Nat) (gen : List Char) :
    AppState :=
  if app.finished_at.isSome then
    match key with
    | KeyCode.enter => reset app gen
    | _ => app
  else
    let app1 := if app.started_at.isNone then { app with started_at := some now }
                else app
    let app2 := match key with
      | KeyCode.char c => inputInsert app1 c
      | KeyCode.f n => if n = 5 then reset app1 gen else app1
      | KeyCode.backspace => inputDeletePrev app1
      | _ => app1
    if utf8Len app2.target ≤ utf8Len app2.inputValue then
      { app2 with finished_at := some now }
    else app2

/-- app.rs `App::stats`, returning `(elapsed, wpm, accuracy)`.  The f64
arithmetic is modelled over `ℚ` with the same branch structure; `elapsed`
uses saturating `Instant` subtraction in whole model-time units, and the
source's `as u32` casts of the character counts are modelled as exact
naturals. -/
def stats (app : AppState) (now : Nat) : ℚ × ℚ × ℚ :=
  let total_typed : Nat := app.inputValue.length
  let correct : Nat :=
    ((app.target.zip app.inputValue).filter (fun p => p.1 == p.2)).length
  let elapsed : ℚ :=
    match app.started_at with
    | none => 0
    | some t =>
      match app.finished_at with
      | some f => ((f - t : Nat) : ℚ)
      | none => ((now - t : Nat) : ℚ)
  let wpm : ℚ :=
    if 0 < elapsed then
      if 0 < elapsed / 60 then ((total_typed : ℚ) / 5) / (elapsed / 60) else 0
    else 0
  let accuracy : ℚ :=
    if 0 < total_typed then ((correct : ℚ) / (total_typed : ℚ)) * 100 else 100
  (elapsed, wpm, accuracy)

@[simp] theorem notSpace_eq_true {c : Char} : notSpace c = true ↔ c ≠ ' ' := by
  simp [notSpace]

@[simp] theorem notSpace_eq_false {c : Char} : notSpace c = false ↔ c = ' ' := by
  simp [notSpace]

theorem layoutAux_eq_fuel (width : Nat) :
    ∀ (fuel : Nat) (cs : List Char), cs.length ≤ fuel →
      ∀ (i col : Nat) (cur : List Glyph),
        layoutAux width cs i col cur = layoutAuxF width fuel cs i col cur := by
  intro fuel
  induction fuel with
  | zero =>
    intro cs hcs i col cur
    cases cs with
    | nil => rw [layoutAux, layoutAuxF]
    | cons c cs => simp at hcs
  | succ fuel ih =>
    intro cs hcs i col cur
    cases cs with
    | nil => rw [layoutAux, layoutAuxF]
    | cons c cs =>
      simp only [List.length_cons, Nat.succ_le_succ_iff] at hcs
      rw [layoutAux, layoutAuxF]
      by_cases h : c = ' '
      · simp only [dif_pos h, if_pos h]
        by_cases h0 : col = 0
        · simp only [if_pos h0]
          exact ih cs hcs _ _ _
        · simp only [if_neg h0]
          by_cases hw : width < col + 1
          · simp only [if_pos hw]
            rw [ih cs hcs]
          · simp only [if_neg hw]
            exact ih cs hcs _ _ _
      · simp only [dif_neg h, if_neg h]
        have hdrop : (List.dropWhile notSpace (c :: cs)).length ≤ fuel := by
          rw [List.dropWhile_cons, if_pos (show notSpace c = true by simp [h])]
          exact le_trans (List.dropWhile_sublist notSpace (l := cs)).length_le hcs
        by_cases hwrap : 0 < col ∧ width < col + (List.takeWhile notSpace (c :: cs)).length
        · simp only [if_pos hwrap]
          rw [ih _ hdrop]
        · simp only [if_neg hwrap]
          exact ih _ hdrop _ _ _

theorem layout_text_eq_fuel (text : List Char) (width : Nat) :
    layout_text text width = layout_textF text width :=
  layoutAux_eq_fuel (max width 1) text.length text le_rfl 0 0 []

@[simp] theorem consecFrom_zero (s : Nat) : consecFrom s 0 = [] := rfl

@[simp] theorem consecFrom_succ (s n : Nat) :
    consecFrom s (n + 1) = s :: consecFrom (s + 1) n := rfl

theorem consecFrom_length (s n : Nat) : (consecFrom s n).length = n := by
  induction n generalizing s with
  | zero => rfl
  | succ n ih => simp [ih]

theorem consecFrom_append (s m n : Nat) :
    consecFrom s m ++ consecFrom (s + m) n = consecFrom s (m + n) := by
  induction m generalizing s n with
  | zero => simp
  | succ m ih =>
    simp only [consecFrom_succ, List.cons_append]
    rw [show s + (m + 1) = (s + 1) + m by omega, ih,
      show m + 1 + n = (m + n) + 1 by omega, consecFrom_succ]

theorem mem_consecFrom {j s n : Nat} :
    j ∈ consecFrom s n ↔ s ≤ j ∧ j < s + n := by
  induction n generalizing s with
  | zero => simp
  | succ n ih =>
    simp only [consecFrom_succ, List.mem_cons, ih]
    omega

theorem consecFrom_getElem? {s n j : Nat} (h : j < n) :
    (consecFrom s n)[j]? = some (s + j) := by
  induction n generalizing s j with
  | zero => omega
  | succ n ih =>
    cases j with
    | zero => simp
    | succ j =>
      simp only [consecFrom_succ, List.getElem?_cons_succ]
      rw [ih (by omega)]
      congr 1
      omega

theorem consecFrom_pairwise (s n : Nat) :
    (consecFrom s n).Pairwise (· < ·) := by
  induction n generalizing s with
  | zero => simp
  | succ n ih =>
    simp only [consecFrom_succ, List.pairwise_cons]
    exact ⟨fun j hj => (mem_consecFrom.mp hj).1, ih (s + 1)⟩

theorem consecFrom_getLast? {s n : Nat} (h : 0 < n) :
    (consecFrom s n).getLast? = some (s + n - 1) := by
  induction n generalizing s with
  | zero => omega
  | succ n ih =>
    cases n with
    | zero => simp
    | succ m =>
      have h1 : consecFrom (s + 1) (m + 1) ≠ [] := by simp [consecFrom_succ]
      rw [consecFrom_succ,
        show (s :: consecFrom (s + 1) (m + 1)) = [s] ++ consecFrom (s + 1) (m + 1) from rfl,
        List.getLast?_append_of_ne_nil [s] h1, ih (by omega)]
      congr 1
      omega

theorem enumF_append (i : Nat) (l1 l2 : List Char) :
    enumF i (l1 ++ l2) = enumF i l1 ++ enumF (i + l1.length) l2 := by
  induction l1 generalizing i with
  | nil => simp [enumF]
  | cons c cs ih =>
    simp only [List.cons_append, enumF, List.length_cons, List.append_eq]
    rw [ih (i + 1), show i + 1 + cs.length = i + (cs.length + 1) by omega]

theorem enumF_map_fst (i : Nat) (cs : List Char) :
    (enumF i cs).map Prod.fst = consecFrom i cs.length := by
  induction cs generalizing i with
  | nil => rfl
  | cons c cs ih => simp [enumF, ih]

theorem mem_enumF {q : Nat × Char} : ∀ {i : Nat} {cs : List Char},
    q ∈ enumF i cs ↔ ∃ j, cs[j]? = some q.2 ∧ q.1 = i + j := by
  intro i cs
  induction cs generalizing i with
  | nil => simp [enumF]
  | cons c cs ih =>
    simp only [enumF, List.mem_cons, ih]
    constructor
    · rintro (rfl | ⟨j, hj, hq⟩)
      · exact ⟨0, by simp⟩
      · exact ⟨j + 1, by simpa using hj, by omega⟩
    · rintro ⟨j, hj, hq⟩
      cases j with
      | zero =>
        left
        simp only [List.getElem?_cons_zero, Option.some_inj] at hj
        cases q
        simp_all
      | succ j =>
        right
        exact ⟨j, by simpa using hj, by omega⟩

theorem glyphsFrom_eq_enumF (i : Nat) (cs : List Char) :
    glyphsFrom i cs = (enumF i cs).map (fun q => Glyph.mk q.2 q.1) := by
  induction cs generalizing i with
  | nil => rfl
  | cons c cs ih => simp [glyphsFrom, enumF, ih]

theorem glyphsFrom_length (i : Nat) (cs : List Char) :
    (glyphsFrom i cs).length = cs.length := by
  induction cs generalizing i with
  | nil => rfl
  | cons c cs ih => simp [glyphsFrom, ih]

theorem glyphsFrom_map_idx (i : Nat) (cs : List Char) :
    (glyphsFrom i cs).map Glyph.idx = consecFrom i cs.length := by
  induction cs generalizing i with
  | nil => rfl
  | cons c cs ih => simp [glyphsFrom, ih]

theorem mem_glyphsFrom {g : Glyph} {i : Nat} {cs : List Char}
    (h : g ∈ glyphsFrom i cs) : ∃ j, cs[j]? = some g.ch ∧ g.idx = i + j := by
  rw [glyphsFrom_eq_enumF] at h
  obtain ⟨q, hq, hg⟩ := List.mem_map.mp h
  obtain ⟨j, hj, hq1⟩ := mem_enumF.mp hq
  exact ⟨j, by rw [← hg]; exact hj, by rw [← hg]; exact hq1⟩

theorem drop_cons_tail {T : List Char} {i : Nat} {c : Char} {l : List Char}
    (h : T.drop i = c :: l) : T.drop (i + 1) = l := by
  rw [show i + 1 = i + 1 from rfl, ← List.drop_drop 1 i T, h, List.drop_one, List.tail_cons]

theorem drop_cons_getElem? {T : List Char} {i : Nat} {c : Char} {l : List Char}
    (h : T.drop i = c :: l) : T[i]? = some c := by
  have := List.getElem?_drop T i 0
  rw [h] at this
  simpa using this.symm

theorem drop_cons_lt_length {T : List Char} {i : Nat} {c : Char} {l : List Char}
    (h : T.drop i = c :: l) : i < T.length := by
  have := congrArg List.length h
  simp only [List.length_drop, List.length_cons] at this
  omega

theorem prefix_getElem? {α : Type} {l1 l2 : List α} (h : List.IsPrefix l1 l2)
    {j : Nat} (hj : j < l1.length) : l2[j]? = l1[j]? := by
  obtain ⟨t, rfl⟩ := h
  rw [List.getElem?_append]
  rw [if_pos hj]

theorem dropWhile_head_space {l : List Char} {c : Char}
    (h : (l.dropWhile notSpace).head? = some c) : c = ' ' := by
  have hmatch := List.head?_dropWhile_not notSpace l
  rw [h] at hmatch
  simpa using hmatch

theorem layoutAux_nil (width i col : Nat) (cur : List Glyph) :
    layoutAux width [] i col cur = [cur] := by
  rw [layoutAux]

theorem layoutAux_space_col0 (width : Nat) (cs : List Char) (i : Nat)
    (cur : List Glyph) :
    layoutAux width (' ' :: cs) i 0 cur = layoutAux width cs (i + 1) 0 cur := by
  rw [layoutAux]
  simp

theorem layoutAux_space_wrap (width : Nat) (cs : List Char) (i col : Nat)
    (cur : List Glyph) (h0 : col ≠ 0) (hw : width < col + 1) :
    layoutAux width (' ' :: cs) i col cur =
      cur :: layoutAux width cs (i + 1) 0 [] := by
  rw [layoutAux]
  simp [h0, hw]

theorem layoutAux_space_keep (width : Nat) (cs : List Char) (i col : Nat)
    (cur : List Glyph) (h0 : col ≠ 0) (hw : ¬ width < col + 1) :
    layoutAux width (' ' :: cs) i col cur =
      layoutAux width cs (i + 1) (col + 1) (cur ++ [⟨' ', i⟩]) := by
  rw [layoutAux]
  simp [h0, hw]

theorem layoutAux_word_wrap (width : Nat) (c : Char) (cs : List Char)
    (i col : Nat) (cur : List Glyph) (hc : ¬ c = ' ')
    (hw : 0 < col ∧ width < col + (List.takeWhile notSpace (c :: cs)).length) :
    layoutAux width (c :: cs) i col cur =
      cur :: layoutAux width (List.dropWhile notSpace (c :: cs))
        (i + (List.takeWhile notSpace (c :: cs)).length)
        (List.takeWhile notSpace (c :: cs)).length
        (glyphsFrom i (List.takeWhile notSpace (c :: cs))) := by
  rw [layoutAux]
  rw [dif_neg hc, if_pos hw]

theorem layoutAux_word_cont (width : Nat) (c : Char) (cs : List Char)
    (i col : Nat) (cur : List Glyph) (hc : ¬ c = ' ')
    (hw : ¬ (0 < col ∧ width < col + (List.takeWhile notSpace (c :: cs)).length)) :
    layoutAux width (c :: cs) i col cur =
      layoutAux width (List.dropWhile notSpace (c :: cs))
        (i + (List.takeWhile notSpace (c :: cs)).length)
        (col + (List.takeWhile notSpace (c :: cs)).length)
        (cur ++ glyphsFrom i (List.takeWhile notSpace (c :: cs))) := by
  rw [layoutAux]
  rw [dif_neg hc, if_neg hw]

/-- Core accounting lemma for `layoutAux`: the glyphs of the produced rows,
in order, are the current row followed by the glyphs of a sublist (`kept`)
of the remaining indexed characters, and every remaining non-space
character is kept. -/
theorem layoutAux_flatten_kept (width : Nat) (cs : List Char) (i col : Nat)
    (cur : List Glyph) :
    ∃ kept : List (Nat × Char),
      List.Sublist kept (enumF i cs) ∧
      (layoutAux width cs i col cur).flatten =
        cur ++ kept.map (fun q => Glyph.mk q.2 q.1) ∧
      ∀ q ∈ enumF i cs, q.2 ≠ ' ' → q ∈ kept := by
  induction cs, i, col, cur using layoutAux.induct width with
  | case1 i col cur =>
    exact ⟨[], List.nil_sublist _, by simp [layoutAux_nil], by simp [enumF]⟩
  | case2 cs i cur ih =>
    obtain ⟨kept, hsub, hflat, hall⟩ := ih
    refine ⟨kept, hsub.cons (i, ' '), ?_, ?_⟩
    · rw [layoutAux_space_col0]
      exact hflat
    · intro q hq hq2
      rcases List.mem_cons.mp hq with rfl | hq'
      · exact absurd rfl hq2
      · exact hall q hq' hq2
  | case3 cs i col cur h0 hw ih =>
    obtain ⟨kept, hsub, hflat, hall⟩ := ih
    refine ⟨kept, hsub.cons (i, ' '), ?_, ?_⟩
    · rw [layoutAux_space_wrap width cs i col cur h0 hw]
      simp only [List.flatten_cons, hflat, List.nil_append]
    · intro q hq hq2
      rcases List.mem_cons.mp hq with rfl | hq'
      · exact absurd rfl hq2
      · exact hall q hq' hq2
  | case4 cs i col cur h0 hw ih =>
    obtain ⟨kept, hsub, hflat, hall⟩ := ih
    refine ⟨(i, ' ') :: kept, hsub.cons₂ (i, ' '), ?_, ?_⟩
    · rw [layoutAux_space_keep width cs i col cur h0 hw]
      rw [hflat]
      simp
    · intro q hq hq2
      rcases List.mem_cons.mp hq with rfl | hq'
      · exact List.mem_cons_self _ _
      · exact List.mem_cons_of_mem _ (hall q hq' hq2)
  | case5 c cs i col cur hc hw ih =>
    obtain ⟨kept, hsub, hflat, hall⟩ := ih
    have hsplit : enumF i (c :: cs) =
        enumF i (List.takeWhile notSpace (c :: cs)) ++
          enumF (i + (List.takeWhile notSpace (c :: cs)).length)
            (List.dropWhile notSpace (c :: cs)) := by
      conv_lhs => rw [← List.takeWhile_append_dropWhile notSpace (c :: cs)]
      rw [enumF_append]
    refine ⟨enumF i (List.takeWhile notSpace (c :: cs)) ++ kept, ?_, ?_, ?_⟩
    · rw [hsplit]
      exact (List.Sublist.refl _).append hsub
    · rw [layoutAux_word_wrap width c cs i col cur hc hw]
      simp only [List.flatten_cons, hflat, List.map_append, ← glyphsFrom_eq_enumF,
        List.append_assoc]
    · intro q hq hq2
      rw [hsplit] at hq
      rcases List.mem_append.mp hq with hq' | hq'
      · exact List.mem_append_left _ hq'
      · exact List.mem_append_right _ (hall q hq' hq2)
  | case6 c cs i col cur hc hw ih =>
    obtain ⟨kept, hsub, hflat, hall⟩ := ih
    have hsplit : enumF i (c :: cs) =
        enumF i (List.takeWhile notSpace (c :: cs)) ++
          enumF (i + (List.takeWhile notSpace (c :: cs)).length)
            (List.dropWhile notSpace (c :: cs)) := by
      conv_lhs => rw [← List.takeWhile_append_dropWhile notSpace (c :: cs)]
      rw [enumF_append]
    refine ⟨enumF i (List.takeWhile notSpace (c :: cs)) ++ kept, ?_, ?_, ?_⟩
    · rw [hsplit]
      exact (List.Sublist.refl _).append hsub
    · rw [layoutAux_word_cont width c cs i col cur hc hw]
      rw [hflat]
      simp only [List.map_append, ← glyphsFrom_eq_enumF, List.append_assoc]
    · intro q hq hq2
      rw [hsplit] at hq
      rcases List.mem_append.mp hq with hq' | hq'
      · exact List.mem_append_left _ hq'
      · exact List.mem_append_right _ (hall q hq' hq2)

theorem drop_length_takeWhile (p : Char → Bool) (l : List Char) :
    l.drop (l.takeWhile p).length = l.dropWhile p := by
  induction l with
  | nil => rfl
  | cons a l ih =>
    rw [List.takeWhile_cons, List.dropWhile_cons]
    cases hp : p a
    · simp [hp]
    · simp only [hp, if_true, List.length_cons, List.drop_succ_cons]
      exact ih

theorem layoutAux_rows (T : List Char) (width : Nat) (cs : List Char)
    (i col : Nat) (cur : List Glyph) :
    cs = T.drop i →
    i ≤ T.length →
    col = cur.length →
    col ≤ i →
    cur.map Glyph.idx = consecFrom (i - col) col →
    (∀ g ∈ cur, T[g.idx]? = some g.ch) →
    (∀ g, cur.head? = some g → g.ch ≠ ' ') →
    (0 < col → leftB T (i - col)) →
    (col = 0 → leftB T i) →
    (∀ g, cur.getLast? = some g → g.ch ≠ ' ' → cs.head? = some ' ' ∨ cs = []) →
    (width < col → (∀ g ∈ cur, g.ch ≠ ' ') ∧ (cs.head? = some ' ' ∨ cs = [])) →
    ∀ r ∈ layoutAux width cs i col cur, RowOK T width r := by
  induction cs, i, col, cur using layoutAux.induct width with
  | case1 i col cur =>
    intro hT hiT hcol hle hconsec hch hhead hstart hempty hrun hover
    rw [layoutAux_nil]
    intro r hr
    rcases List.mem_singleton.mp hr with rfl
    refine ⟨hch, hhead, i - col, by rw [← hcol]; exact hconsec, ?_, ?_⟩
    · intro hne
      exact hstart (by rw [hcol]; exact List.length_pos.mpr hne)
    · by_cases hbw : r.length ≤ width
      · exact Or.inl hbw
      · refine Or.inr ⟨(hover (by omega)).1, ?_⟩
        have hTi : T.length ≤ i := by
          have := congrArg List.length hT
          simp only [List.length_nil, List.length_drop] at this
          omega
        have hieq : i = T.length := le_antisymm hiT hTi
        left
        rw [← hcol]
        omega
  | case2 cs i cur ih =>
    intro hT hiT hcol hle hconsec hch hhead hstart hempty hrun hover
    have hcur0 : cur = [] := List.length_eq_zero.mp hcol.symm
    subst hcur0
    rw [layoutAux_space_col0]
    refine ih ?_ ?_ rfl (by omega) rfl ?_ ?_ (by omega) ?_ ?_ (by omega)
    · exact (drop_cons_tail hT.symm).symm
    · exact drop_cons_lt_length hT.symm
    · intro g hg
      exact absurd hg (List.not_mem_nil g)
    · intro g hg
      exact absurd hg (by simp)
    · intro _
      exact Or.inr (by simpa using drop_cons_getElem? hT.symm)
    · intro g hg
      exact absurd hg (by simp)
  | case3 cs i col cur h0 hw ih =>
    intro hT hiT hcol hle hconsec hch hhead hstart hempty hrun hover
    rw [layoutAux_space_wrap width cs i col cur h0 hw]
    intro r hr
    rcases List.mem_cons.mp hr with rfl | hr'
    · refine ⟨hch, hhead, i - col, by rw [← hcol]; exact hconsec, ?_, ?_⟩
      · intro hne
        exact hstart (by rw [hcol]; exact List.length_pos.mpr hne)
      · by_cases hbw : r.length ≤ width
        · exact Or.inl hbw
        · refine Or.inr ⟨(hover (by omega)).1, ?_⟩
          right
          have : T[i]? = some ' ' := drop_cons_getElem? hT.symm
          rw [← hcol]
          rw [show i - col + col = i by omega]
          exact this
    · refine ih ?_ ?_ rfl (by omega) rfl ?_ ?_ (by omega) ?_ ?_ (by omega) r hr'
      · exact (drop_cons_tail hT.symm).symm
      · exact drop_cons_lt_length hT.symm
      · intro g hg
        exact absurd hg (List.not_mem_nil g)
      · intro g hg
        exact absurd hg (by simp)
      · intro _
        exact Or.inr (by simpa using drop_cons_getElem? hT.symm)
      · intro g hg
        exact absurd hg (by simp)
  | case4 cs i col cur h0 hw ih =>
    intro hT hiT hcol hle hconsec hch hhead hstart hempty hrun hover
    have hcne : cur ≠ [] := by
      intro h
      rw [h] at hcol
      exact h0 (by simpa using hcol)
    have hTi : T[i]? = some ' ' := drop_cons_getElem? hT.symm
    rw [layoutAux_space_keep width cs i col cur h0 hw]
    refine ih ?_ ?_ ?_ (by omega) ?_ ?_ ?_ ?_ ?_ ?_ ?_
    · exact (drop_cons_tail hT.symm).symm
    · exact drop_cons_lt_length hT.symm
    · rw [List.length_append, ← hcol]
      rfl
    · rw [List.map_append, hconsec]
      simp only [List.map_cons, List.map_nil]
      rw [show i + 1 - (col + 1) = i - col by omega,
        ← consecFrom_append (i - col) col 1, show i - col + col = i by omega]
      simp [consecFrom]
    · intro g hg
      rcases List.mem_append.mp hg with hg' | hg'
      · exact hch g hg'
      · rcases List.mem_singleton.mp hg' with rfl
        exact hTi
    · intro g hg
      rw [List.head?_append_of_ne_nil cur hcne] at hg
      exact hhead g hg
    · intro _
      rw [show i + 1 - (col + 1) = i - col by omega]
      exact hstart (by omega)
    · omega
    · intro g hg hgne
      rw [List.getLast?_concat] at hg
      rcases Option.some_inj.mp hg with rfl
      exact absurd rfl hgne
    · intro h
      exact absurd h (by omega)
  | case5 c cs i col cur hc hw ih =>
    intro hT hiT hcol hle hconsec hch hhead hstart hempty hrun hover
    have hnotover : ¬ width < col := by
      intro h
      rcases (hover h).2 with hh | hh
      · rw [show (c :: cs).head? = some c from rfl] at hh
        exact hc (Option.some_inj.mp hh)
      · exact List.cons_ne_nil c cs hh
    have htwl : 0 < (List.takeWhile notSpace (c :: cs)).length := by
      rw [List.takeWhile_cons, if_pos (by simpa using hc)]
      simp
    have hdrop : List.dropWhile notSpace (c :: cs) =
        T.drop (i + (List.takeWhile notSpace (c :: cs)).length) := by
      rw [← List.drop_drop, ← hT, drop_length_takeWhile]
    have hlen : (List.takeWhile notSpace (c :: cs)).length ≤ cs.length + 1 := by
      have := (List.takeWhile_sublist notSpace (l := c :: cs)).length_le
      simpa using this
    have hiT2 : i + (List.takeWhile notSpace (c :: cs)).length ≤ T.length := by
      have := congrArg List.length hT
      simp only [List.length_cons, List.length_drop] at this
      omega
    have hchw : ∀ g ∈ glyphsFrom i (List.takeWhile notSpace (c :: cs)),
        T[g.idx]? = some g.ch := by
      intro g hg
      obtain ⟨j, hj, hidx⟩ := mem_glyphsFrom hg
      have hjlt : j < (List.takeWhile notSpace (c :: cs)).length :=
        (List.getElem?_eq_some_iff.mp hj).1
      have h1 : (T.drop i)[j]? = T[i + j]? := List.getElem?_drop T i j
      rw [← hT] at h1
      rw [hidx, ← h1, prefix_getElem? (List.takeWhile_prefix notSpace) hjlt, hj]
    have hnsw : ∀ g ∈ glyphsFrom i (List.takeWhile notSpace (c :: cs)),
        g.ch ≠ ' ' := by
      intro g hg
      obtain ⟨j, hj, _⟩ := mem_glyphsFrom hg
      have := List.mem_takeWhile_imp (List.getElem?_mem hj)
      simpa using this
    have hdw : ∀ g : Glyph,
        (List.dropWhile notSpace (c :: cs)).head? = some ' ' ∨
          List.dropWhile notSpace (c :: cs) = [] := by
      intro _
      cases hd : List.dropWhile notSpace (c :: cs) with
      | nil => exact Or.inr rfl
      | cons x xs =>
        left
        have : x = ' ' := dropWhile_head_space (by rw [hd]; rfl)
        rw [this]
        rfl
    have hheadw : ∀ g, (glyphsFrom i (List.takeWhile notSpace (c :: cs))).head? =
        some g → g.ch ≠ ' ' := by
      intro g hg
      rw [List.takeWhile_cons, if_pos (by simpa using hc)] at hg
      rw [show glyphsFrom i (c :: List.takeWhile notSpace cs) =
        ⟨c, i⟩ :: glyphsFrom (i + 1) (List.takeWhile notSpace cs) from rfl] at hg
      rcases Option.some_inj.mp hg with rfl
      exact hc
    have hstartw : leftB T i := by
      have hcpos : 0 < col := hw.1
      have hcne : cur ≠ [] := by
        intro h
        rw [h] at hcol
        simp at hcol
        omega
      have hlast : ∃ gl, cur.getLast? = some gl ∧ gl.idx = i - 1 := by
        have h1 : (cur.map Glyph.idx).getLast? = some (i - col + col - 1) := by
          rw [hconsec]
          exact consecFrom_getLast? (by omega)
        rw [List.getLast?_map] at h1
        obtain ⟨gl, hgl, hgl2⟩ := Option.map_eq_some'.mp h1
        exact ⟨gl, hgl, by rw [hgl2]; omega⟩
      obtain ⟨gl, hgl, hglidx⟩ := hlast
      by_cases hglsp : gl.ch = ' '
      · right
        have := hch gl (List.mem_of_mem_getLast? hgl)
        rw [hglidx, hglsp] at this
        exact this
      · rcases hrun gl hgl hglsp with hh | hh
        · rw [show (c :: cs).head? = some c from rfl] at hh
          exact absurd (Option.some_inj.mp hh) hc
        · exact absurd hh (List.cons_ne_nil c cs)
    rw [layoutAux_word_wrap width c cs i col cur hc hw]
    intro r hr
    rcases List.mem_cons.mp hr with rfl | hr'
    · refine ⟨hch, hhead, i - col, by rw [← hcol]; exact hconsec, ?_, ?_⟩
      · intro hne
        exact hstart (by rw [hcol]; exact List.length_pos.mpr hne)
      · left
        rw [← hcol]
        omega
    · refine ih ?_ ?_ ?_ (by omega) ?_ hchw hheadw ?_ ?_ ?_ ?_ r hr'
      · exact hdrop
      · exact hiT2
      · rw [glyphsFrom_length]
      · rw [glyphsFrom_map_idx]
        congr 1
        omega
      · intro _
        rw [show i + (List.takeWhile notSpace (c :: cs)).length -
          (List.takeWhile notSpace (c :: cs)).length = i by omega]
        exact hstartw
      · intro h
        omega
      · intro g _ _
        exact hdw g
      · intro _
        exact ⟨hnsw, hdw ⟨' ', 0⟩⟩
  | case6 c cs i col cur hc hw ih =>
    intro hT hiT hcol hle hconsec hch hhead hstart hempty hrun hover
    have htwl : 0 < (List.takeWhile notSpace (c :: cs)).length := by
      rw [List.takeWhile_cons, if_pos (by simpa using hc)]
      simp
    have hdrop : List.dropWhile notSpace (c :: cs) =
        T.drop (i + (List.takeWhile notSpace (c :: cs)).length) := by
      rw [← List.drop_drop, ← hT, drop_length_takeWhile]
    have hlen : (List.takeWhile notSpace (c :: cs)).length ≤ cs.length + 1 := by
      have := (List.takeWhile_sublist notSpace (l := c :: cs)).length_le
      simpa using this
    have hiT2 : i + (List.takeWhile notSpace (c :: cs)).length ≤ T.length := by
      have := congrArg List.length hT
      simp only [List.length_cons, List.length_drop] at this
      omega
    have hchw : ∀ g ∈ glyphsFrom i (List.takeWhile notSpace (c :: cs)),
        T[g.idx]? = some g.ch := by
      intro g hg
      obtain ⟨j, hj, hidx⟩ := mem_glyphsFrom hg
      have hjlt : j < (List.takeWhile notSpace (c :: cs)).length :=
        (List.getElem?_eq_some_iff.mp hj).1
      have h1 : (T.drop i)[j]? = T[i + j]? := List.getElem?_drop T i j
      rw [← hT] at h1
      rw [hidx, ← h1, prefix_getElem? (List.takeWhile_prefix notSpace) hjlt, hj]
    have hnsw : ∀ g ∈ glyphsFrom i (List.takeWhile notSpace (c :: cs)),
        g.ch ≠ ' ' := by
      intro g hg
      obtain ⟨j, hj, _⟩ := mem_glyphsFrom hg
      have := List.mem_takeWhile_imp (List.getElem?_mem hj)
      simpa using this
    have hdw : (List.dropWhile notSpace (c :: cs)).head? = some ' ' ∨
        List.dropWhile notSpace (c :: cs) = [] := by
      cases hd : List.dropWhile notSpace (c :: cs) with
      | nil => exact Or.inr rfl
      | cons x xs =>
        left
        have : x = ' ' := dropWhile_head_space (by rw [hd]; rfl)
        rw [this]
        rfl
    have hgne : glyphsFrom i (List.takeWhile notSpace (c :: cs)) ≠ [] := by
      intro h
      have h2 := congrArg List.length h
      rw [glyphsFrom_length] at h2
      simp only [List.length_nil] at h2
      omega
    rw [layoutAux_word_cont width c cs i col cur hc hw]
    refine ih ?_ ?_ ?_ (by omega) ?_ ?_ ?_ ?_ ?_ ?_ ?_
    · exact hdrop
    · exact hiT2
    · rw [List.length_append, glyphsFrom_length, ← hcol]
    · rw [List.map_append, hconsec, glyphsFrom_map_idx]
      have h2 := consecFrom_append (i - col) col
        (List.takeWhile notSpace (c :: cs)).length
      rw [show i - col + col = i by omega] at h2
      rw [h2]
      congr 1
      omega
    · intro g hg
      rcases List.mem_append.mp hg with hg' | hg'
      · exact hch g hg'
      · exact hchw g hg'
    · intro g hg
      by_cases hcne : cur = []
      · subst hcne
        rw [List.nil_append] at hg
        rw [List.takeWhile_cons, if_pos (by simpa using hc)] at hg
        rw [show glyphsFrom i (c :: List.takeWhile notSpace cs) =
          ⟨c, i⟩ :: glyphsFrom (i + 1) (List.takeWhile notSpace cs) from rfl] at hg
        rcases Option.some_inj.mp hg with rfl
        exact hc
      · rw [List.head?_append_of_ne_nil cur hcne] at hg
        exact hhead g hg
    · intro _
      rw [show i + (List.takeWhile notSpace (c :: cs)).length -
        (col + (List.takeWhile notSpace (c :: cs)).length) = i - col by omega]
      by_cases hc0 : col = 0
      · rw [hc0, Nat.sub_zero]
        exact hempty hc0
      · exact hstart (by omega)
    · intro h
      omega
    · intro g hg hgne2
      exact hdw
    · intro hov
      have hc0 : col = 0 := by
        by_contra hc0
        exact hw ⟨by omega, by omega⟩
      have hcur0 : cur = [] := List.length_eq_zero.mp (by omega)
      subst hcur0
      rw [List.nil_append]
      exact ⟨hnsw, hdw⟩

theorem layout_text_rows (T : List Char) (w : Nat) :
    ∀ r ∈ layout_text T w, RowOK T (max w 1) r := by
  refine layoutAux_rows T (max w 1) T 0 0 [] ?_ ?_ rfl ?_ rfl ?_ ?_ ?_ ?_ ?_ ?_
  · exact (List.drop_zero T).symm
  · exact Nat.zero_le _
  · exact le_rfl
  · intro g hg
    exact absurd hg (List.not_mem_nil g)
  · intro g hg
    exact absurd hg (by simp)
  · intro h
    exact absurd h (by omega)
  · intro _
    exact Or.inl rfl
  · intro g hg
    exact absurd hg (by simp)
  · intro h
    exact absurd h (by omega)

theorem layout_text_flatten_kept (T : List Char) (w : Nat) :
    ∃ kept : List (Nat × Char),
      List.Sublist kept (enumF 0 T) ∧
      (layout_text T w).flatten = kept.map (fun q => Glyph.mk q.2 q.1) ∧
      ∀ q ∈ enumF 0 T, q.2 ≠ ' ' → q ∈ kept := by
  obtain ⟨kept, h1, h2, h3⟩ := layoutAux_flatten_kept (max w 1) T 0 0 []
  exact ⟨kept, h1, by simpa using h2, h3⟩

theorem layout_text_flatten_pairwise (T : List Char) (w : Nat) :
    ((layout_text T w).flatten.map Glyph.idx).Pairwise (· < ·) := by
  obtain ⟨kept, h1, h2, _⟩ := layout_text_flatten_kept T w
  have hidxcomp : (Glyph.idx ∘ (fun q : Nat × Char => Glyph.mk q.2 q.1)) =
      Prod.fst := rfl
  rw [h2, List.map_map, hidxcomp]
  have hsub2 : List.Sublist (kept.map Prod.fst) (consecFrom 0 T.length) := by
    rw [← enumF_map_fst]
    exact h1.map Prod.fst
  exact (consecFrom_pairwise 0 T.length).sublist hsub2

/-- C1: concatenating the rows of `layout_text text width`, in order,
yields a subsequence of the indexed input characters, with strictly
increasing source index; each glyph carries the input character at its
source index; every input position missing from the layout holds a space;
no kept space ever begins a row, and each row's indices are consecutive
(so characters are dropped only at row boundaries — exactly the spaces
that would have begun a row). -/
theorem C1_layout_subsequence (T : List Char) (w : Nat) :
    List.Sublist ((layout_text T w).flatten.map (fun g => (g.idx, g.ch)))
      (enumF 0 T) ∧
    ((layout_text T w).flatten.map Glyph.idx).Pairwise (· < ·) ∧
    (∀ g ∈ (layout_text T w).flatten, T[g.idx]? = some g.ch) ∧
    (∀ k, k < T.length → (∀ g ∈ (layout_text T w).flatten, g.idx ≠ k) →
      T[k]? = some ' ') ∧
    (∀ r ∈ layout_text T w, ∀ g, r.head? = some g → g.ch ≠ ' ') ∧
    (∀ r ∈ layout_text T w, ∃ s, r.map Glyph.idx = consecFrom s r.length) := by
  obtain ⟨kept, h1, h2, h3⟩ := layout_text_flatten_kept T w
  have hidcomp : ((fun g : Glyph => (g.idx, g.ch)) ∘
      (fun q : Nat × Char => Glyph.mk q.2 q.1)) = id := rfl
  have hidxcomp : (Glyph.idx ∘ (fun q : Nat × Char => Glyph.mk q.2 q.1)) =
      Prod.fst := rfl
  refine ⟨?_, ?_, ?_, ?_, ?_, ?_⟩
  · rw [h2, List.map_map, hidcomp, List.map_id]
    exact h1
  · exact layout_text_flatten_pairwise T w
  · intro g hg
    obtain ⟨r, hr, hgr⟩ := List.mem_flatten.mp hg
    exact (layout_text_rows T w r hr).1 g hgr
  · intro k hk habsent
    by_contra hks
    have hkc : ∃ c, T[k]? = some c := ⟨T[k], List.getElem?_eq_getElem hk⟩
    obtain ⟨c, hc⟩ := hkc
    have hcne : c ≠ ' ' := fun h => hks (by rw [hc, h])
    have hmem : (k, c) ∈ enumF 0 T := mem_enumF.mpr ⟨k, hc, by omega⟩
    have hkept : (k, c) ∈ kept := h3 (k, c) hmem hcne
    have : (Glyph.mk c k) ∈ (layout_text T w).flatten := by
      rw [h2]
      exact List.mem_map_of_mem _ hkept
    exact habsent _ this rfl
  · intro r hr
    exact (layout_text_rows T w r hr).2.1
  · intro r hr
    obtain ⟨s, hs, _, _⟩ := (layout_text_rows T w r hr).2.2
    exact ⟨s, hs⟩

/-- Witness for C1 at text `"ab  x"` and width 2: position 2 is dropped
(both glyph-absent positions are spaces), as the theorem's dropped-character
clause yields. -/
theorem C1_layout_subsequence_witness :
    (['a', 'b', ' ', ' ', 'x'] : List Char)[2]? = some ' ' :=
  (C1_layout_subsequence ['a', 'b', ' ', ' ', 'x'] 2).2.2.2.1 2 (by decide)
    (by rw [layout_text_eq_fuel]; decide)

theorem rows_share_idx_eq (L : Layout)
    (hp : (L.flatten.map Glyph.idx).Pairwise (· < ·)) :
    ∀ r ∈ L, ∀ r2 ∈ L, ∀ g ∈ r, ∀ g2 ∈ r2, g.idx = g2.idx → r = r2 := by
  induction L with
  | nil =>
    intro r hr
    exact absurd hr (List.not_mem_nil r)
  | cons r0 rest ih =>
    rw [List.flatten_cons, List.map_append, List.pairwise_append] at hp
    obtain ⟨hp0, hprest, hcross⟩ := hp
    intro r hr r2 hr2 g hg g2 hg2 hidx
    rcases List.mem_cons.mp hr with rfl | hr' <;>
      rcases List.mem_cons.mp hr2 with rfl | hr2'
    · rfl
    · have hg2f : g2 ∈ rest.flatten := List.mem_flatten.mpr ⟨r2, hr2', hg2⟩
      have := hcross g.idx (List.mem_map_of_mem _ hg) g2.idx
        (List.mem_map_of_mem _ hg2f)
      omega
    · have hgf : g ∈ rest.flatten := List.mem_flatten.mpr ⟨r, hr', hg⟩
      have := hcross g2.idx (List.mem_map_of_mem _ hg2) g.idx
        (List.mem_map_of_mem _ hgf)
      omega
    · exact ih hprest r hr' r2 hr2' g hg g2 hg2 hidx

theorem nonspace_present (T : List Char) (w : Nat) :
    ∀ k c, T[k]? = some c → c ≠ ' ' →
      ∃ r ∈ layout_text T w, Glyph.mk c k ∈ r := by
  obtain ⟨kept, h1, h2, h3⟩ := layout_text_flatten_kept T w
  intro k c hk hc
  have hmem : (k, c) ∈ enumF 0 T := mem_enumF.mpr ⟨k, hk, by omega⟩
  have : Glyph.mk c k ∈ (layout_text T w).flatten := by
    rw [h2]
    exact List.mem_map_of_mem _ (h3 _ hmem hc)
  exact List.mem_flatten.mp this

theorem exists_glyph_of_idx_mem {r : List Glyph} {s j : Nat}
    (hconsec : r.map Glyph.idx = consecFrom s r.length)
    (hj1 : s ≤ j) (hj2 : j < s + r.length) : ∃ g ∈ r, g.idx = j := by
  have hj : j ∈ r.map Glyph.idx := by
    rw [hconsec]
    exact mem_consecFrom.mpr ⟨hj1, hj2⟩
  obtain ⟨g, hg, hgj⟩ := List.mem_map.mp hj
  exact ⟨g, hg, hgj⟩

theorem idx_bounds_of_mem {r : List Glyph} {s : Nat} {g : Glyph}
    (hconsec : r.map Glyph.idx = consecFrom s r.length) (hg : g ∈ r) :
    s ≤ g.idx ∧ g.idx < s + r.length := by
  have : g.idx ∈ consecFrom s r.length := by
    rw [← hconsec]
    exact List.mem_map_of_mem _ hg
  exact mem_consecFrom.mp this

/-- C2: after clamping the width to `max w 1`, no row of
`layout_text text w` holds more than `max w 1` glyphs, except that a
contiguous non-space run longer than the width occupies a row by itself
(the row is exactly that maximal run, hence starts at column 0); and every
maximal non-space run longer than the width is held by exactly one row. -/
theorem C2_width_bound (T : List Char) (w : Nat) :
    (∀ r ∈ layout_text T w, r.length ≤ max w 1 ∨
      (max w 1 < r.length ∧ ∃ a, r.map Glyph.idx = consecFrom a r.length ∧
        isMaxRun T a r.length)) ∧
    (∀ a len, isMaxRun T a len → max w 1 < len →
      ∃ r, (r ∈ layout_text T w ∧ r.map Glyph.idx = consecFrom a len) ∧
        ∀ r2, r2 ∈ layout_text T w → r2.map Glyph.idx = consecFrom a len →
          r2 = r) := by
  have hpair := layout_text_flatten_pairwise T w
  constructor
  · intro r hr
    obtain ⟨hch, hhead, s, hconsec, hleft, hbound⟩ := layout_text_rows T w r hr
    by_cases hlen : r.length ≤ max w 1
    · exact Or.inl hlen
    · have hWlt : max w 1 < r.length := by omega
      rcases hbound with hb | ⟨hns, hrB⟩
      · exact absurd hb hlen
      refine Or.inr ⟨hWlt, s, hconsec, ?_, ?_, ?_, ?_, hrB⟩
      · omega
      · obtain ⟨g, hg, hgidx⟩ := exists_glyph_of_idx_mem hconsec
          (by omega) (by omega : s + r.length - 1 < s + r.length)
        have := hch g hg
        have hlt := (List.getElem?_eq_some_iff.mp this).1
        omega
      · intro j c hj1 hj2 hjc
        obtain ⟨g, hg, hgidx⟩ := exists_glyph_of_idx_mem hconsec hj1 hj2
        have := hch g hg
        rw [hgidx, hjc] at this
        rcases Option.some_inj.mp this with rfl
        exact hns g hg
      · exact hleft (by intro h; rw [h] at hWlt; simp at hWlt)
  · intro a len hrun hWlt
    obtain ⟨hlen1, hrange, hint, hlB, hrB⟩ := hrun
    have halt : a < T.length := by omega
    have hc0 : T[a]? = some T[a] := List.getElem?_eq_getElem halt
    have hc0ns : T[a] ≠ ' ' := hint a T[a] le_rfl (by omega) hc0
    obtain ⟨r0, hr0, hg0⟩ := nonspace_present T w a T[a] hc0 hc0ns
    obtain ⟨hch0, hhead0, s0, hconsec0, hleft0, hbound0⟩ :=
      layout_text_rows T w r0 hr0
    have hall : ∀ d, d < len → ∃ g ∈ r0, g.idx = a + d := by
      intro d
      induction d with
      | zero =>
        intro _
        exact ⟨Glyph.mk T[a] a, hg0, rfl⟩
      | succ d ihd =>
        intro hd
        obtain ⟨gd, hgd, hgdidx⟩ := ihd (by omega)
        have hd1lt : a + (d + 1) < T.length := by omega
        have hcd : T[a + (d + 1)]? = some T[a + (d + 1)] :=
          List.getElem?_eq_getElem hd1lt
        have hcdns : T[a + (d + 1)] ≠ ' ' :=
          hint (a + (d + 1)) _ (by omega) (by omega) hcd
        obtain ⟨r1, hr1, hg1⟩ := nonspace_present T w (a + (d + 1)) _ hcd hcdns
        obtain ⟨hch1, hhead1, s1, hconsec1, hleft1, hbound1⟩ :=
          layout_text_rows T w r1 hr1
        have hb1 := idx_bounds_of_mem hconsec1 hg1
        simp only [show (Glyph.mk T[a + (d + 1)] (a + (d + 1))).idx = a + (d + 1)
          from rfl] at hb1
        by_cases hs1 : s1 = a + (d + 1)
        · exfalso
          have hne1 : r1 ≠ [] := by
            intro h
            rw [h] at hg1
            exact List.not_mem_nil _ hg1
          rcases hleft1 hne1 with h0 | hsp
          · omega
          · rw [hs1] at hsp
            have hadlt : a + d < T.length := by omega
            have : T[a + d]? = some T[a + d] := List.getElem?_eq_getElem hadlt
            have hadns : T[a + d] ≠ ' ' := hint (a + d) _ (by omega) (by omega) this
            rw [show a + (d + 1) - 1 = a + d by omega] at hsp
            rw [this] at hsp
            exact hadns (Option.some_inj.mp hsp)
        · have hs1lt : s1 < a + (d + 1) := by omega
          have had_in : ∃ g2 ∈ r1, g2.idx = a + d :=
            exists_glyph_of_idx_mem hconsec1 (by omega) (by omega)
          obtain ⟨g2, hg2, hg2idx⟩ := had_in
          have heq : r1 = r0 := rows_share_idx_eq (layout_text T w) hpair
            r1 hr1 r0 hr0 g2 hg2 gd hgd (by omega)
          rw [heq] at hg1
          exact ⟨_, hg1, rfl⟩
    have hb0 := idx_bounds_of_mem hconsec0 hg0
    simp only [show (Glyph.mk T[a] a).idx = a from rfl] at hb0
    have hlast : ∃ g ∈ r0, g.idx = a + (len - 1) := hall (len - 1) (by omega)
    obtain ⟨glast, hglast, hglastidx⟩ := hlast
    have hblast := idx_bounds_of_mem hconsec0 hglast
    have hr0len : len ≤ r0.length := by omega
    rcases hbound0 with hb | ⟨hns0, hrB0⟩
    · omega
    have hs0a : s0 = a := by
      by_contra hs0
      have hs0lt : s0 < a := by omega
      have ha1 : 1 ≤ a := by omega
      obtain ⟨gp, hgp, hgpidx⟩ := exists_glyph_of_idx_mem hconsec0
        (by omega : s0 ≤ a - 1) (by omega)
      have hgpch := hch0 gp hgp
      rcases hlB with h0 | hsp
      · omega
      · rw [hgpidx] at hgpch
        rw [hgpch] at hsp
        exact hns0 gp hgp (Option.some_inj.mp hsp)
    have hr0eq : r0.length = len := by
      by_contra hne
      have hlonger : a + len < s0 + r0.length := by omega
      obtain ⟨gq, hgq, hgqidx⟩ := exists_glyph_of_idx_mem hconsec0
        (by omega : s0 ≤ a + len) (by omega)
      have hgqch := hch0 gq hgq
      rw [hgqidx] at hgqch
      rcases hrB with hend | hsp
      · have : T[a + len]? = none := List.getElem?_eq_none (by omega)
        rw [this] at hgqch
        cases hgqch
      · rw [hgqch] at hsp
        exact hns0 gq hgq (Option.some_inj.mp hsp)
    refine ⟨r0, ⟨hr0, by rw [hconsec0, hr0eq, hs0a]⟩, ?_⟩
    intro r2 hr2 hr2idx
    have hlen2 : r2.length = len := by
      have := congrArg List.length hr2idx
      rw [List.length_map, consecFrom_length] at this
      exact this
    obtain ⟨g2, hg2, hg2idx⟩ := exists_glyph_of_idx_mem
      (by rw [hr2idx, hlen2]) (le_refl a) (by omega)
    exact rows_share_idx_eq (layout_text T w) hpair r2 hr2 r0 hr0
      g2 hg2 (Glyph.mk T[a] a) hg0 (by rw [hg2idx])

/-- Witness for C2 at text `"toolong x"` and width 3: the over-long word
`"toolong"` (7 > 3) occupies exactly one row, whose indices are 0..6. -/
theorem C2_width_bound_witness :
    ∃ r, (r ∈ layout_text ['t', 'o', 'o', 'l', 'o', 'n', 'g', ' ', 'x'] 3 ∧
        r.map Glyph.idx = consecFrom 0 7) ∧
      ∀ r2, r2 ∈ layout_text ['t', 'o', 'o', 'l', 'o', 'n', 'g', ' ', 'x'] 3 →
        r2.map Glyph.idx = consecFrom 0 7 → r2 = r :=
  (C2_width_bound ['t', 'o', 'o', 'l', 'o', 'n', 'g', ' ', 'x'] 3).2 0 7
    ⟨by decide, by decide,
      by
        intro j c hj1 hj2 hjc
        interval_cases j <;> (intro hceq; subst hceq; revert hjc; decide),
      Or.inl rfl,
      Or.inr (by decide)⟩
    (by decide)

theorem one_le_charUtf8Size (c : Char) : 1 ≤ charUtf8Size c := by
  unfold charUtf8Size
  split_ifs <;> omega

theorem utf8Len_eq_zero {l : List Char} : utf8Len l = 0 ↔ l = [] := by
  cases l with
  | nil => simp [utf8Len]
  | cons c cs =>
    simp only [utf8Len, List.map_cons, List.sum_cons, iff_false,
      List.cons_ne_nil, iff_false]
    have := one_le_charUtf8Size c
    omega

/-- C6: for every total row count, visible height ≥ 1 and cursor row, the
scroll offset of `draw_ui` equals
`min (max 0 (cursor_row - (visible_height - 1))) (max 0 (total_rows - visible_height))`
(stated over ℤ, where the saturation of u16 `saturating_sub` is explicit);
consequently it is at most `max 0 (total_rows - visible_height)`, and
whenever `cursor_row < total_rows` the cursor row lands inside the visible
window: `cursor_row - scroll_offset < visible_height`. -/
theorem C6_scroll_offset_spec (total_rows visible_height cursor_row : Nat)
    (hvh : 1 ≤ visible_height) :
    ((scroll_offset total_rows visible_height cursor_row : ℤ) =
      min (max 0 ((cursor_row : ℤ) - ((visible_height : ℤ) - 1)))
        (max 0 ((total_rows : ℤ) - (visible_height : ℤ)))) ∧
    scroll_offset total_rows visible_height cursor_row ≤
      total_rows - visible_height ∧
    (cursor_row < total_rows →
      cursor_row - scroll_offset total_rows visible_height cursor_row <
        visible_height) := by
  unfold scroll_offset
  refine ⟨?_, ?_, ?_⟩
  · push_cast
    omega
  · omega
  · omega

/-- Witness for C6 at `total_rows = 7`, `visible_height = 3`,
`cursor_row = 5`. -/
theorem C6_scroll_offset_spec_witness :
    ((scroll_offset 7 3 5 : ℤ) =
      min (max 0 ((5 : ℤ) - ((3 : ℤ) - 1))) (max 0 ((7 : ℤ) - (3 : ℤ)))) ∧
    scroll_offset 7 3 5 ≤ 7 - 3 ∧
    (5 < 7 → 5 - scroll_offset 7 3 5 < 3) :=
  C6_scroll_offset_spec 7 3 5 (by decide)

/-- C9: the stats computation returns accuracy exactly 100 when the typed
buffer is empty, and wpm exactly 0 when elapsed time is ≤ 0.  (Modelled
over ℚ with the source's branch structure; in the degenerate branches the
source returns the literals `100.0` and `0.0`, so no NaN or infinity can
arise from them.) -/
theorem C9_stats_degenerate (app : AppState) (now : Nat) :
    (app.inputValue = [] → (stats app now).2.2 = 100) ∧
    ((stats app now).1 ≤ 0 → (stats app now).2.1 = 0) := by
  constructor
  · intro h
    simp [stats, h]
  · intro h
    simp only [stats] at h ⊢
    rw [if_neg (not_lt.mpr h)]

/-- Witness for C9: an idle app with empty typed buffer has accuracy 100
and wpm 0. -/
theorem C9_stats_degenerate_witness :
    (stats ⟨TextSource.fixed ['a'], ['a'], [], 0, none, none, 0⟩ 4).2.2 = 100 ∧
    (stats ⟨TextSource.fixed ['a'], ['a'], [], 0, none, none, 0⟩ 4).2.1 = 0 :=
  ⟨(C9_stats_degenerate ⟨TextSource.fixed ['a'], ['a'], [], 0, none, none, 0⟩ 4).1
      rfl,
    (C9_stats_degenerate ⟨TextSource.fixed ['a'], ['a'], [], 0, none, none, 0⟩ 4).2
      (le_of_eq (by norm_num [stats]))⟩

theorem finish_check_spec (a : AppState) (now : Nat) (ha : a.finished_at = none) :
    ((if utf8Len a.target ≤ utf8Len a.inputValue then
        { a with finished_at := some now } else a).finished_at.isSome ↔
      utf8Len (if utf8Len a.target ≤ utf8Len a.inputValue then
        { a with finished_at := some now } else a).target ≤
      utf8Len (if utf8Len a.target ≤ utf8Len a.inputValue then
        { a with finished_at := some now } else a).inputValue) ∧
    ((if utf8Len a.target ≤ utf8Len a.inputValue then
        { a with finished_at := some now } else a).finished_at.isSome →
      (if utf8Len a.target ≤ utf8Len a.inputValue then
        { a with finished_at := some now } else a).finished_at = some now) := by
  by_cases h : utf8Len a.target ≤ utf8Len a.inputValue
  · simp [h]
  · simp [h, ha]

/-- C3 counterexample: the claim measures lengths in characters, but
`App::handle_key` compares `typed.len() >= self.target.len()` — byte
lengths.  With target `"é"` (one character, two UTF-8 bytes) and an active
session, typing `'a'` makes the typed buffer's character length (1) reach
the target's character length (1), yet the finish timestamp is not set. -/
theorem C3_counterexample :
    (handle_key ⟨TextSource.fixed ['é'], ['é'], [], 0, some 0, none, 0⟩
        (KeyCode.char 'a') 1 []).finished_at = none ∧
    (handle_key ⟨TextSource.fixed ['é'], ['é'], [], 0, some 0, none, 0⟩
        (KeyCode.char 'a') 1 []).target.length ≤
      (handle_key ⟨TextSource.fixed ['é'], ['é'], [], 0, some 0, none, 0⟩
        (KeyCode.char 'a') 1 []).inputValue.length := by
  constructor
  · rfl
  · decide

/-- C3 as amended: when the session is Active, handling a keystroke sets the
finish timestamp (to `now`) if and only if, after the edit, the typed
buffer's UTF-8 byte length is at least the target's UTF-8 byte length. -/
theorem C3_finish_iff_bytes (app : AppState) (key : KeyCode) (now t0 : Nat)
    (gen : List Char) (hstart : app.started_at = some t0)
    (hfin : app.finished_at = none) :
    ((handle_key app key now gen).finished_at.isSome ↔
      utf8Len (handle_key app key now gen).target ≤
        utf8Len (handle_key app key now gen).inputValue) ∧
    ((handle_key app key now gen).finished_at.isSome →
      (handle_key app key now gen).finished_at = some now) := by
  have hno : app.started_at.isNone = false := by rw [hstart]; rfl
  cases key with
  | char c =>
    simp only [handle_key, hfin, hno, Option.isSome_none,
      Bool.false_eq_true, if_false]
    exact finish_check_spec _ now (by simp [inputInsert, hfin])
  | f n =>
    simp only [handle_key, hfin, hno, Option.isSome_none,
      Bool.false_eq_true, if_false]
    by_cases h5 : n = 5
    · simp only [h5, if_pos rfl]
      exact finish_check_spec _ now (by simp [reset])
    · simp only [if_neg h5]
      exact finish_check_spec _ now hfin
  | backspace =>
    simp only [handle_key, hfin, hno, Option.isSome_none,
      Bool.false_eq_true, if_false]
    refine finish_check_spec _ now ?_
    unfold inputDeletePrev
    split <;> simp [hfin]
  | enter =>
    simp only [handle_key, hfin, hno, Option.isSome_none,
      Bool.false_eq_true, if_false]
    exact finish_check_spec _ now hfin
  | esc =>
    simp only [handle_key, hfin, hno, Option.isSome_none,
      Bool.false_eq_true, if_false]
    exact finish_check_spec _ now hfin
  | other =>
    simp only [handle_key, hfin, hno, Option.isSome_none,
      Bool.false_eq_true, if_false]
    exact finish_check_spec _ now hfin

/-- Witness for C3 (amended): active session with target `"ab"`, typed
`"a"`, typing `'b'` reaches the byte length and finishes. -/
theorem C3_finish_iff_bytes_witness :
    ((handle_key ⟨TextSource.fixed ['a', 'b'], ['a', 'b'], ['a'], 1, some 0, none, 0⟩
        (KeyCode.char 'b') 7 []).finished_at.isSome ↔
      utf8Len (handle_key ⟨TextSource.fixed ['a', 'b'], ['a', 'b'], ['a'], 1, some 0, none, 0⟩
        (KeyCode.char 'b') 7 []).target ≤
        utf8Len (handle_key ⟨TextSource.fixed ['a', 'b'], ['a', 'b'], ['a'], 1, some 0, none, 0⟩
        (KeyCode.char 'b') 7 []).inputValue) ∧
    ((handle_key ⟨TextSource.fixed ['a', 'b'], ['a', 'b'], ['a'], 1, some 0, none, 0⟩
        (KeyCode.char 'b') 7 []).finished_at.isSome →
      (handle_key ⟨TextSource.fixed ['a', 'b'], ['a', 'b'], ['a'], 1, some 0, none, 0⟩
        (KeyCode.char 'b') 7 []).finished_at = some 7) :=
  C3_finish_iff_bytes ⟨TextSource.fixed ['a', 'b'], ['a', 'b'], ['a'], 1, some 0, none, 0⟩
    (KeyCode.char 'b') 7 0 [] rfl rfl

/-- C4 counterexample: in the Finished state `App::handle_key` matches only
`Enter` (confirm); the explicit reset key F5 falls through to the
do-nothing arm, so the finish timestamp is not cleared and no reset is
performed, contradicting the claim for the Finished state. -/
theorem C4_counterexample :
    (handle_key
        ⟨TextSource.fixed ['a', 'b'], ['a', 'b'], ['a', 'b'], 2, some 0, some 1, 0⟩
        (KeyCode.f 5) 2 []).finished_at = some 1 := by
  rfl

/-- C4 as amended: in the Idle or Active states (finish timestamp unset),
and provided the regenerated target is nonempty, handling the F5 reset key
performs a full Reset: the resulting state is exactly `reset app gen`
(typed buffer empty, both timestamps cleared, target regenerated), and for
a fixed text source the regenerated target is the identical text.  In the
Finished state F5 is ignored; only Enter resets. -/
theorem no_finish_of_reset (a : AppState) (gen : List Char) (now : Nat)
    (hne : regenerate a.source gen ≠ []) :
    (if utf8Len (reset a gen).target ≤ utf8Len (reset a gen).inputValue then
      { reset a gen with finished_at := some now } else reset a gen) = reset a gen := by
  rw [if_neg]
  intro h
  simp only [reset, utf8Len, List.map_nil, List.sum_nil, Nat.le_zero] at h
  exact hne (utf8Len_eq_zero.mp h)

theorem C4_reset_on_f5 (app : AppState) (now : Nat) (gen : List Char)
    (hfin : app.finished_at = none) (hne : regenerate app.source gen ≠ []) :
    handle_key app (KeyCode.f 5) now gen = reset app gen ∧
    (∀ t, app.source = TextSource.fixed t →
      (handle_key app (KeyCode.f 5) now gen).target = t) := by
  have hmain : handle_key app (KeyCode.f 5) now gen = reset app gen := by
    simp only [handle_key, hfin, Option.isSome_none, Bool.false_eq_true, if_false,
      if_true]
    by_cases hsn : app.started_at.isNone
    · rw [if_pos hsn]
      exact no_finish_of_reset _ gen now hne
    · rw [if_neg hsn]
      exact no_finish_of_reset _ gen now hne
  refine ⟨hmain, fun t ht => ?_⟩
  rw [hmain]
  simp [reset, regenerate, ht]

/-- Witness for C4 (amended): idle app with fixed source text `"ab"`. -/
theorem C4_reset_on_f5_witness :
    handle_key ⟨TextSource.fixed ['a', 'b'], ['a', 'b'], ['a'], 1, some 0, none, 0⟩
        (KeyCode.f 5) 9 [] =
      reset ⟨TextSource.fixed ['a', 'b'], ['a', 'b'], ['a'], 1, some 0, none, 0⟩ [] ∧
    (∀ t, (⟨TextSource.fixed ['a', 'b'], ['a', 'b'], ['a'], 1, some 0, none, 0⟩
        : AppState).source = TextSource.fixed t →
      (handle_key ⟨TextSource.fixed ['a', 'b'], ['a', 'b'], ['a'], 1, some 0, none, 0⟩
        (KeyCode.f 5) 9 []).target = t) :=
  C4_reset_on_f5 ⟨TextSource.fixed ['a', 'b'], ['a', 'b'], ['a'], 1, some 0, none, 0⟩
    9 [] rfl (by decide)

/-- C5 counterexample: while Idle, `App::handle_key` records
`started_at = now` before inspecting the key code, so even a key that is
not an accepted keystroke (here Enter) starts the session, contradicting
the claim that the session stays Idle. -/
theorem C5_counterexample :
    (handle_key ⟨TextSource.fixed ['a', 'b'], ['a', 'b'], [], 0, none, none, 0⟩
        KeyCode.enter 5 []).started_at = some 5 := by
  rfl

/-- C5 as amended: while the session is Idle, handling ANY key event other
than the F5 reset key — accepted or not — records the start timestamp
`started_at = now`; the start timestamp is not reserved to accepted
keystrokes.  (F5 itself triggers a reset, which clears the timestamp it
just set.) -/
theorem C5_any_key_starts (app : AppState) (key : KeyCode) (now : Nat)
    (gen : List Char) (hstart : app.started_at = none)
    (hfin : app.finished_at = none) (hkey : key ≠ KeyCode.f 5) :
    (handle_key app key now gen).started_at = some now := by
  cases key with
  | char c =>
    simp only [handle_key, hstart, hfin, Option.isSome_none, Option.isNone_none,
      Bool.false_eq_true, if_false, if_true]
    split <;> simp [inputInsert]
  | f n =>
    have h5 : n ≠ 5 := fun h => hkey (by rw [h])
    simp only [handle_key, hstart, hfin, Option.isSome_none, Option.isNone_none,
      Bool.false_eq_true, if_false, if_true, if_neg h5]
    split <;> rfl
  | backspace =>
    simp only [handle_key, hstart, hfin, Option.isSome_none, Option.isNone_none,
      Bool.false_eq_true, if_false, if_true]
    unfold inputDeletePrev
    split <;> split <;> rfl
  | enter =>
    simp only [handle_key, hstart, hfin, Option.isSome_none, Option.isNone_none,
      Bool.false_eq_true, if_false, if_true]
    split <;> rfl
  | esc =>
    simp only [handle_key, hstart, hfin, Option.isSome_none, Option.isNone_none,
      Bool.false_eq_true, if_false, if_true]
    split <;> rfl
  | other =>
    simp only [handle_key, hstart, hfin, Option.isSome_none, Option.isNone_none,
      Bool.false_eq_true, if_false, if_true]
    split <;> rfl

theorem findIdx?_start_eq_some {α : Type} (p : α → Bool) :
    ∀ (l : List α) (st k : Nat) (x : α), l[k]? = some x → p x = true →
      (∀ j y, j < k → l[j]? = some y → p y = false) →
      List.findIdx? p l st = some (st + k) := by
  intro l
  induction l with
  | nil =>
    intro st k x hk
    simp at hk
  | cons a l ih =>
    intro st k x hk hp hbefore
    rw [List.findIdx?_cons]
    cases k with
    | zero =>
      simp only [List.getElem?_cons_zero, Option.some_inj] at hk
      rw [hk, if_pos hp]
      rfl
    | succ k =>
      have hpa : p a = false := hbefore 0 a (by omega) (by simp)
      rw [if_neg (by simp [hpa])]
      have := ih (st + 1) k x (by simpa using hk) hp
        (fun j y hj hy => hbefore (j + 1) y (by omega) (by simpa using hy))
      rw [this]
      congr 1
      omega

theorem findIdx?_start_eq_none {α : Type} (p : α → Bool) :
    ∀ (l : List α) (st : Nat), (∀ x ∈ l, p x = false) →
      List.findIdx? p l st = none := by
  intro l
  induction l with
  | nil =>
    intro st _
    exact List.findIdx?_nil
  | cons a l ih =>
    intro st hall
    rw [List.findIdx?_cons,
      if_neg (by simp [hall a (List.mem_cons_self a l)])]
    exact ih (st + 1) (fun x hx => hall x (List.mem_cons_of_mem a hx))

theorem cursorAux_spec :
    ∀ (L : Layout) (g : Glyph) (row col : Nat) (tline : List Glyph)
      (base : Nat),
      ((L.flatten.map Glyph.idx).Pairwise (· < ·)) →
      L[row]? = some tline → tline[col]? = some g →
      cursorAux L g.idx base = some (base + row, col) := by
  intro L
  induction L with
  | nil =>
    intro g row col tline base _ h1
    simp at h1
  | cons l0 rest ih =>
    intro g row col tline base hp h1 h2
    rw [List.flatten_cons, List.map_append, List.pairwise_append] at hp
    obtain ⟨hp0, hprest, hcross⟩ := hp
    rw [show cursorAux (l0 :: rest) g.idx base =
      (match List.findIdx? (fun g2 => g2.idx == g.idx) l0 with
       | some col2 => some (base, col2)
       | none => cursorAux rest g.idx (base + 1)) from rfl]
    cases row with
    | zero =>
      have hl0 : l0 = tline := by simpa using h1
      subst hl0
      have hfind : List.findIdx? (fun g2 => g2.idx == g.idx) l0 = some col := by
        have hbefore : ∀ j y, j < col → l0[j]? = some y →
            (y.idx == g.idx) = false := by
          intro j y hj hy
          have hjlt : j < l0.length := (List.getElem?_eq_some_iff.mp hy).1
          have hcollt : col < l0.length := (List.getElem?_eq_some_iff.mp h2).1
          have hjlt2 : j < (List.map Glyph.idx l0).length := by simpa using hjlt
          have hcollt2 : col < (List.map Glyph.idx l0).length := by
            simpa using hcollt
          have hlt := (List.pairwise_iff_getElem.mp hp0) j col hjlt2 hcollt2 hj
          rw [List.getElem_map, List.getElem_map] at hlt
          have hyv : l0[j] = y := by
            have := List.getElem?_eq_getElem hjlt
            rw [hy] at this
            exact (Option.some_inj.mp this).symm
          have hgv : l0[col] = g := by
            have := List.getElem?_eq_getElem hcollt
            rw [h2] at this
            exact (Option.some_inj.mp this).symm
          rw [hyv, hgv] at hlt
          simp only [beq_eq_false_iff_ne, ne_eq]
          omega
        have := findIdx?_start_eq_some (fun g2 => g2.idx == g.idx) l0 0 col g
          h2 (by simp) hbefore
        simpa using this
      rw [hfind]
      rfl
    | succ row =>
      have hgrest : g ∈ rest.flatten := by
        have hline : tline ∈ rest := by
          have : rest[row]? = some tline := by simpa using h1
          exact List.getElem?_mem this
        exact List.mem_flatten.mpr ⟨tline, hline, List.getElem?_mem h2⟩
      have hnone : List.findIdx? (fun g2 => g2.idx == g.idx) l0 = none := by
        refine findIdx?_start_eq_none _ l0 0 ?_
        intro x hx
        have := hcross x.idx (List.mem_map_of_mem _ hx) g.idx
          (List.mem_map_of_mem _ hgrest)
        simp only [beq_eq_false_iff_ne, ne_eq]
        omega
      rw [hnone]
      have := ih g row col tline (base + 1) hprest (by simpa using h1) h2
      rw [this, show base + 1 + row = base + (row + 1) by omega]

theorem layout_text_all_nonspace (cs : List Char) (w : Nat)
    (h : ∀ c ∈ cs, ¬ c = ' ') : layout_text cs w = [glyphsFrom 0 cs] := by
  cases cs with
  | nil =>
    unfold layout_text
    rw [layoutAux_nil]
    rfl
  | cons c cs2 =>
    unfold layout_text
    have htw : List.takeWhile notSpace (c :: cs2) = c :: cs2 :=
      List.takeWhile_eq_self_iff.mpr
        (fun a ha => by simpa using h a ha)
    have hdw : List.dropWhile notSpace (c :: cs2) = [] :=
      List.dropWhile_eq_nil_iff.mpr
        (fun a ha => by simpa using h a ha)
    rw [layoutAux_word_cont (max w 1) c cs2 0 0 []
      (h c (List.mem_cons_self c cs2)) (by simp)]
    rw [htw, hdw, layoutAux_nil, List.nil_append]

theorem glyphsFrom_getElem? (i : Nat) :
    ∀ (cs : List Char) (j : Nat) (hj : j < cs.length),
      (glyphsFrom i cs)[j]? = some (Glyph.mk cs[j] (i + j)) := by
  intro cs
  induction cs generalizing i with
  | nil =>
    intro j hj
    simp at hj
  | cons c cs2 ih =>
    intro j hj
    cases j with
    | zero => simp [glyphsFrom]
    | succ j =>
      rw [show glyphsFrom i (c :: cs2) = Glyph.mk c i :: glyphsFrom (i + 1) cs2
        from rfl]
      rw [List.getElem?_cons_succ, ih (i + 1) j (by simpa using hj)]
      simp only [List.getElem_cons_succ, Option.some_inj]
      congr 1
      omega

theorem cursor_row_col_from_layout_mod (T : List Char) (w : Nat)
    (row col : Nat) (tline : List Glyph) (g : Glyph)
    (h1 : (layout_text T w)[row]? = some tline)
    (h2 : tline[col]? = some g) :
    cursor_row_col_from_layout (layout_text T w) g.idx =
      (row % 65536, col % 65536) := by
  have hp := layout_text_flatten_pairwise T w
  have hspec := cursorAux_spec (layout_text T w) g row col tline 0 hp h1 h2
  unfold cursor_row_col_from_layout
  rw [hspec]
  simp

/-- C8 counterexample: the source's `(row as u16, col as u16)` casts
truncate.  The text of 65537 letters `'a'` at width 5 is laid out as a
single over-long row; the glyph `⟨'a', 65536⟩` sits at row 0, column
65536 of that engine-produced layout, yet the locator returns `(0, 0)`
(65536 reduced mod 2^16), not `(0, 65536)` — so the exact round-trip
claim fails. -/
theorem C8_counterexample :
    (layout_text (List.replicate 65537 'a') 5)[0]? =
      some (glyphsFrom 0 (List.replicate 65537 'a')) ∧
    (glyphsFrom 0 (List.replicate 65537 'a'))[65536]? =
      some (Glyph.mk 'a' 65536) ∧
    cursor_row_col_from_layout (layout_text (List.replicate 65537 'a') 5)
      (Glyph.mk 'a' 65536).idx = (0, 0) ∧
    ((0 : Nat), (0 : Nat)) ≠ ((0 : Nat), (65536 : Nat)) := by
  have hns : ∀ c ∈ List.replicate 65537 'a', ¬ c = ' ' := by
    intro c hc
    rw [List.eq_of_mem_replicate hc]
    decide
  have hlay := layout_text_all_nonspace (List.replicate 65537 'a') 5 hns
  have h1 : (layout_text (List.replicate 65537 'a') 5)[0]? =
      some (glyphsFrom 0 (List.replicate 65537 'a')) := by
    rw [hlay]
    rfl
  have h2 : (glyphsFrom 0 (List.replicate 65537 'a'))[65536]? =
      some (Glyph.mk 'a' 65536) := by
    have := glyphsFrom_getElem? 0 (List.replicate 65537 'a') 65536
      (by rw [List.length_replicate]; omega)
    rw [this]
    rw [List.getElem_replicate]
  refine ⟨h1, h2, ?_, by decide⟩
  rw [cursor_row_col_from_layout_mod (List.replicate 65537 'a') 5 0 65536
    (glyphsFrom 0 (List.replicate 65537 'a')) (Glyph.mk 'a' 65536) h1 h2]

/-- C8 as amended: for every layout produced by the layout engine and every
glyph in it, the cursor locator applied to that glyph's source index
returns the glyph's (row, column) position with each coordinate reduced
modulo 2^16 (the source's `as u16` casts) — in particular exactly the
glyph's (row, column) whenever both are below 65536. -/
theorem C8_locator_roundtrip (T : List Char) (w : Nat) (row col : Nat)
    (tline : List Glyph) (g : Glyph)
    (h1 : (layout_text T w)[row]? = some tline)
    (h2 : tline[col]? = some g) :
    cursor_row_col_from_layout (layout_text T w) g.idx =
      (row % 65536, col % 65536) :=
  cursor_row_col_from_layout_mod T w row col tline g h1 h2

/-- Witness for C8 (amended): the glyph `'c'` at source index 3 sits at
row 0, column 3 of the width-10 layout of `"ab c"`; both coordinates are
below 65536, so the locator returns exactly that position. -/
theorem C8_locator_roundtrip_witness :
    cursor_row_col_from_layout (layout_text ['a', 'b', ' ', 'c'] 10)
      (Glyph.mk 'c' 3).idx = (0, 3) := by
  have h := C8_locator_roundtrip ['a', 'b', ' ', 'c'] 10 0 3
    [Glyph.mk 'a' 0, Glyph.mk 'b' 1, Glyph.mk ' ' 2, Glyph.mk 'c' 3]
    (Glyph.mk 'c' 3)
    (by rw [layout_text_eq_fuel]; decide) (by decide)
  simpa using h

theorem mask_takeWhile_dropWhile :
    ∀ (cs cs2 : List Char), cs.map notSpace = cs2.map notSpace →
      (List.takeWhile notSpace cs).length =
        (List.takeWhile notSpace cs2).length ∧
      (List.dropWhile notSpace cs).map notSpace =
        (List.dropWhile notSpace cs2).map notSpace := by
  intro cs
  induction cs with
  | nil =>
    intro cs2 h
    have : cs2 = [] := by simpa using h.symm
    subst this
    simp
  | cons c cs ih =>
    intro cs2 h
    cases cs2 with
    | nil => simp at h
    | cons c2 cs2' =>
      simp only [List.map_cons, List.cons.injEq] at h
      obtain ⟨hc, hcs⟩ := h
      rw [List.takeWhile_cons, List.takeWhile_cons, List.dropWhile_cons,
        List.dropWhile_cons]
      cases hns : notSpace c with
      | false =>
        have hns2 : notSpace c2 = false := by rw [← hc, hns]
        rw [hns2]
        refine ⟨by simp, ?_⟩
        simp [hc, hcs]
      | true =>
        have hns2 : notSpace c2 = true := by rw [← hc, hns]
        rw [hns2]
        obtain ⟨h1, h2⟩ := ih cs2' hcs
        exact ⟨by simpa using h1, by simpa using h2⟩

theorem layoutAux_mask (width : Nat) (cs : List Char) (i col : Nat)
    (cur : List Glyph) :
    ∀ (cs2 : List Char) (cur2 : List Glyph),
      cs.map notSpace = cs2.map notSpace →
      cur.map Glyph.idx = cur2.map Glyph.idx →
      (layoutAux width cs i col cur).map (List.map Glyph.idx) =
        (layoutAux width cs2 i col cur2).map (List.map Glyph.idx) := by
  induction cs, i, col, cur using layoutAux.induct width with
  | case1 i col cur =>
    intro cs2 cur2 hmask hcur
    have : cs2 = [] := by simpa using hmask.symm
    subst this
    rw [layoutAux_nil, layoutAux_nil]
    simp [hcur]
  | case2 cs i cur ih =>
    intro cs2 cur2 hmask hcur
    cases cs2 with
    | nil => simp at hmask
    | cons c2 cs2' =>
      simp only [List.map_cons, List.cons.injEq] at hmask
      obtain ⟨hc, hcs⟩ := hmask
      have hc2 : c2 = ' ' := by
        have : notSpace c2 = false := by rw [← hc]; simp
        simpa using this
      subst hc2
      rw [layoutAux_space_col0, layoutAux_space_col0]
      exact ih cs2' cur2 hcs hcur
  | case3 cs i col cur h0 hw ih =>
    intro cs2 cur2 hmask hcur
    cases cs2 with
    | nil => simp at hmask
    | cons c2 cs2' =>
      simp only [List.map_cons, List.cons.injEq] at hmask
      obtain ⟨hc, hcs⟩ := hmask
      have hc2 : c2 = ' ' := by
        have : notSpace c2 = false := by rw [← hc]; simp
        simpa using this
      subst hc2
      rw [layoutAux_space_wrap width cs i col cur h0 hw,
        layoutAux_space_wrap width cs2' i col cur2 h0 hw]
      simp only [List.map_cons]
      rw [hcur, ih cs2' [] hcs rfl]
  | case4 cs i col cur h0 hw ih =>
    intro cs2 cur2 hmask hcur
    cases cs2 with
    | nil => simp at hmask
    | cons c2 cs2' =>
      simp only [List.map_cons, List.cons.injEq] at hmask
      obtain ⟨hc, hcs⟩ := hmask
      have hc2 : c2 = ' ' := by
        have : notSpace c2 = false := by rw [← hc]; simp
        simpa using this
      subst hc2
      rw [layoutAux_space_keep width cs i col cur h0 hw,
        layoutAux_space_keep width cs2' i col cur2 h0 hw]
      refine ih cs2' (cur2 ++ [⟨' ', i⟩]) hcs ?_
      rw [List.map_append, List.map_append, hcur]
  | case5 c cs i col cur hc hw ih =>
    intro cs2 cur2 hmask hcur
    cases cs2 with
    | nil => simp at hmask
    | cons c2 cs2' =>
      simp only [List.map_cons, List.cons.injEq] at hmask
      obtain ⟨hcm, hcs⟩ := hmask
      have hc2 : ¬ c2 = ' ' := by
        have h1 : notSpace c2 = true := by
          rw [← hcm]
          simpa using hc
        simpa using h1
      obtain ⟨htwl, hdwm⟩ := mask_takeWhile_dropWhile (c :: cs) (c2 :: cs2')
        (by simp [hcm, hcs])
      have hw2 : 0 < col ∧
          width < col + (List.takeWhile notSpace (c2 :: cs2')).length := by
        rw [← htwl]
        exact hw
      rw [layoutAux_word_wrap width c cs i col cur hc hw,
        layoutAux_word_wrap width c2 cs2' i col cur2 hc2 hw2]
      simp only [List.map_cons]
      rw [hcur]
      have hrec := ih (List.dropWhile notSpace (c2 :: cs2'))
        (glyphsFrom i (List.takeWhile notSpace (c2 :: cs2'))) hdwm
        (by rw [glyphsFrom_map_idx, glyphsFrom_map_idx, htwl])
      rw [hrec, ← htwl]
  | case6 c cs i col cur hc hw ih =>
    intro cs2 cur2 hmask hcur
    cases cs2 with
    | nil => simp at hmask
    | cons c2 cs2' =>
      simp only [List.map_cons, List.cons.injEq] at hmask
      obtain ⟨hcm, hcs⟩ := hmask
      have hc2 : ¬ c2 = ' ' := by
        have h1 : notSpace c2 = true := by
          rw [← hcm]
          simpa using hc
        simpa using h1
      obtain ⟨htwl, hdwm⟩ := mask_takeWhile_dropWhile (c :: cs) (c2 :: cs2')
        (by simp [hcm, hcs])
      have hw2 : ¬ (0 < col ∧
          width < col + (List.takeWhile notSpace (c2 :: cs2')).length) := by
        rw [← htwl]
        exact hw
      rw [layoutAux_word_cont width c cs i col cur hc hw,
        layoutAux_word_cont width c2 cs2' i col cur2 hc2 hw2]
      have hrec := ih (List.dropWhile notSpace (c2 :: cs2'))
        (cur2 ++ glyphsFrom i (List.takeWhile notSpace (c2 :: cs2'))) hdwm
        (by rw [List.map_append, List.map_append, hcur,
          glyphsFrom_map_idx, glyphsFrom_map_idx, htwl])
      rw [hrec, ← htwl]

/-- C10: the layout engine treats a newline like any other non-space
character: the row/index structure of the layout is unchanged when every
newline is replaced by a letter (so a newline never by itself causes a row
break, and counts toward its word's length like a letter), and every
non-space character — in particular every newline — appears in the layout
as a glyph carrying its character and index (never dropped). -/
theorem C10_newline_nonspace (T : List Char) (w : Nat) :
    ((layout_text T w).map (List.map Glyph.idx) =
      (layout_text (T.map fun c => if c = Char.ofNat 10 then 'a' else c) w).map
        (List.map Glyph.idx)) ∧
    (∀ k c, T[k]? = some c → c ≠ ' ' →
      ∃ r ∈ layout_text T w, Glyph.mk c k ∈ r) := by
  constructor
  · unfold layout_text
    apply layoutAux_mask
    · rw [List.map_map]
      refine List.map_congr_left ?_
      intro c _
      by_cases hcn : c = Char.ofNat 10
      · subst hcn
        rfl
      · simp only [Function.comp_apply, if_neg hcn]
    · rfl
  · exact nonspace_present T w

/-- Witness for C10: in `"a\nb"`, the newline at index 1 is a non-space
character and appears in the layout as a glyph. -/
theorem C10_newline_nonspace_witness :
    ∃ r ∈ layout_text ['a', Char.ofNat 10, 'b'] 5,
      Glyph.mk (Char.ofNat 10) 1 ∈ r :=
  (C10_newline_nonspace ['a', Char.ofNat 10, 'b'] 5).2 1 (Char.ofNat 10)
    (by decide) (by decide)

/-- C7: every styled row produced by the diff renderer corresponds to the
target layout row at index `scroll_y + r`; each glyph keeps its character
and is styled by looking up the typed character at the glyph's source
index: absent → untyped, equal → correct, different-and-target-space →
incorrect-space, different-and-target-non-space → incorrect-letter. -/
theorem C7_diff_styles (layout : Layout) (typed : List Char)
    (scroll_y visible_height r : Nat) (styled : List (Char × GlyphStyle))
    (hr : (build_target_lines_from_layout layout typed scroll_y visible_height)[r]?
      = some styled) :
    ∃ tline, layout[scroll_y + r]? = some tline ∧ styled.length = tline.length ∧
      ∀ (k : Nat) (g : Glyph), tline[k]? = some g →
        ∃ st, styled[k]? = some (g.ch, st) ∧
          (typed[g.idx]? = none → st = GlyphStyle.untyped) ∧
          (∀ uc, typed[g.idx]? = some uc →
            (uc = g.ch → st = GlyphStyle.correct) ∧
            (uc ≠ g.ch → g.ch = ' ' → st = GlyphStyle.incorrectSpace) ∧
            (uc ≠ g.ch → g.ch ≠ ' ' → st = GlyphStyle.incorrectLetter)) := by
  unfold build_target_lines_from_layout at hr
  rw [List.getElem?_map] at hr
  obtain ⟨row, hrow, hstyled⟩ := Option.map_eq_some'.mp hr
  have hrlt : r < min (scroll_y + visible_height) layout.length - scroll_y := by
    have := List.getElem?_eq_some_iff.mp hrow
    obtain ⟨hlt, _⟩ := this
    simpa [consecFrom_length] using hlt
  have hrowval : row = scroll_y + r := by
    rw [consecFrom_getElem? hrlt] at hrow
    exact (Option.some_inj.mp hrow).symm
  subst hrowval
  have hlt2 : scroll_y + r < layout.length := by omega
  refine ⟨layout[scroll_y + r], List.getElem?_eq_getElem hlt2, ?_, ?_⟩
  · rw [← hstyled]
    simp [List.getD_eq_getElem?_getD, List.getElem?_eq_getElem hlt2]
  · intro k g hk
    have hgd : (layout.getD (scroll_y + r) []) = layout[scroll_y + r] := by
      simp [List.getD_eq_getElem?_getD, List.getElem?_eq_getElem hlt2]
    rw [← hstyled, hgd, List.getElem?_map, hk]
    refine ⟨(match typed[g.idx]? with
      | some uc =>
        if uc = g.ch then GlyphStyle.correct
        else if g.ch = ' ' then GlyphStyle.incorrectSpace
        else GlyphStyle.incorrectLetter
      | none => GlyphStyle.untyped), rfl, ?_, ?_⟩
    · intro h
      simp only [h]
    · intro uc huc
      simp only [huc]
      refine ⟨fun he => by rw [if_pos he], fun hne hsp => ?_, fun hne hnsp => ?_⟩
      · rw [if_neg hne, if_pos hsp]
      · rw [if_neg hne, if_neg hnsp]

/-- Witness for C7: a two-row layout of `"ab a"` at width 2 with typed
`"ax"`, full window. -/
theorem C7_diff_styles_witness :
    ∃ tline, (layout_text ['a', 'b', ' ', 'a'] 2)[0 + 0]? = some tline ∧
      ([(('a', GlyphStyle.correct) : Char × GlyphStyle),
        ('b', GlyphStyle.incorrectLetter)]).length = tline.length ∧
      ∀ (k : Nat) (g : Glyph), tline[k]? = some g →
        ∃ st, ([(('a', GlyphStyle.correct) : Char × GlyphStyle),
            ('b', GlyphStyle.incorrectLetter)])[k]? = some (g.ch, st) ∧
          ((['a', 'x'] : List Char)[g.idx]? = none → st = GlyphStyle.untyped) ∧
          (∀ uc, (['a', 'x'] : List Char)[g.idx]? = some uc →
            (uc = g.ch → st = GlyphStyle.correct) ∧
            (uc ≠ g.ch → g.ch = ' ' → st = GlyphStyle.incorrectSpace) ∧
            (uc ≠ g.ch → g.ch ≠ ' ' → st = GlyphStyle.incorrectLetter)) :=
  C7_diff_styles (layout_text ['a', 'b', ' ', 'a'] 2) ['a', 'x'] 0 5 0
    [('a', GlyphStyle.correct), ('b', GlyphStyle.incorrectLetter)]
    (by rw [layout_text_eq_fuel]; rfl)

/-- Witness for C5 (amended): Idle app, Enter key, start recorded. -/
theorem C5_any_key_starts_witness :
    (handle_key ⟨TextSource.fixed ['a', 'b'], ['a', 'b'], [], 0, none, none, 0⟩
        KeyCode.other 3 []).started_at = some 3 :=
  C5_any_key_starts ⟨TextSource.fixed ['a', 'b'], ['a', 'b'], [], 0, none, none, 0⟩
    KeyCode.other 3 [] rfl rfl (by decide)

end Ttt
